import Mathlib

/-!
Verification of the Treasure Duel game core (src/game/state.py, rules.py,
heuristic.py, engine.py) against its specification.

Embedding conventions:
* grid coordinates are pairs of integers, Python ints are `ℤ`;
* Python floats are modelled as exact rationals `ℚ` (all arithmetic the
  heuristic performs is exact on the inputs that occur); `float('inf')`
  distances are modelled with `Option ℤ` (`none` = infinity);
* search values live in `V := WithBot (WithTop ℚ)`, where `⊥`/`⊤` model
  `float('-inf')`/`float('inf')`;
* `dict` is an insertion-ordered association list with unique keys;
  `set` is a `Finset`;
* the transposition table, a process-global dict keyed by `hash(state)`,
  is threaded explicitly; the structural hash/equality of
  `GameState.__hash__`/`__eq__` is modelled by keying on the state itself;
* search depth is `ℕ` (the program only ever passes non-negative depths);
  `quiescence_search`, whose Python recursion terminates because every
  capture removes a treasure, takes explicit fuel, called with
  `treasures.length + 1` which over-approximates that bound.
-/

namespace TreasureDuel

abbrev Coord := ℤ × ℤ

/-- The seven-field game state of `state.py`.  Fields carry the Python names. -/
structure GameState where
  grid_size : ℤ
  human_pos : Coord
  ai_pos : Coord
  human_score : ℤ
  ai_score : ℤ
  treasures : List (Coord × ℤ)
  visited : Finset Coord
  is_human_turn : Bool
deriving DecidableEq

/-- The dataclass constructor followed by `__post_init__`: whatever `visited`
argument is supplied, `__post_init__` overwrites it with
`{self.human_pos, self.ai_pos}`. -/
def mkGameState (grid_size : ℤ) (human_pos ai_pos : Coord)
    (human_score ai_score : ℤ) (treasures : List (Coord × ℤ))
    (visited : Finset Coord) (is_human_turn : Bool) : GameState :=
  { grid_size := grid_size
    human_pos := human_pos
    ai_pos := ai_pos
    human_score := human_score
    ai_score := ai_score
    treasures := treasures
    visited := {human_pos, ai_pos}
    is_human_turn := is_human_turn }

/-- `GameState.copy`: runs the constructor (hence `__post_init__`) on the
current field values. -/
def GameState.copy (s : GameState) : GameState :=
  mkGameState s.grid_size s.human_pos s.ai_pos s.human_score s.ai_score
    s.treasures s.visited s.is_human_turn

/-- `dict` lookup (`move in treasures` / `treasures[move]`). -/
def dictLookup : List (Coord × ℤ) → Coord → Option ℤ
  | [], _ => none
  | (k, v) :: rest, key => if k = key then some v else dictLookup rest key

/-- `del treasures[move]` for a unique-keyed dict. -/
def dictErase (d : List (Coord × ℤ)) (key : Coord) : List (Coord × ℤ) :=
  d.filter (fun p => p.1 ≠ key)

/-- `GameState.get_score_difference`. -/
def GameState.get_score_difference (s : GameState) : ℤ :=
  s.ai_score - s.human_score

/-- `GameState.get_current_player_pos`. -/
def GameState.get_current_player_pos (s : GameState) : Coord :=
  if s.is_human_turn then s.human_pos else s.ai_pos

/-- `GameState.apply_move`: copy, move the current player, mark the cell
visited, collect a treasure if present, flip the turn. -/
def GameState.apply_move (s : GameState) (move : Coord) : GameState :=
  let new1 := s.copy
  let new2 := if s.is_human_turn then { new1 with human_pos := move }
              else { new1 with ai_pos := move }
  let new3 := { new2 with visited := insert move new2.visited }
  let new4 := match dictLookup new3.treasures move with
    | some v =>
        let collected := if s.is_human_turn
          then { new3 with human_score := new3.human_score + v }
          else { new3 with ai_score := new3.ai_score + v }
        { collected with treasures := dictErase collected.treasures move }
    | none => new3
  { new4 with is_human_turn := !s.is_human_turn }

/-- `rules.get_legal_moves`: the loop over `[up, down, left, right]`
appending each in-bounds, unvisited neighbor. -/
def get_legal_moves (state : GameState) : List Coord :=
  let p := state.get_current_player_pos
  let directions : List Coord :=
    [(p.1 - 1, p.2), (p.1 + 1, p.2), (p.1, p.2 - 1), (p.1, p.2 + 1)]
  directions.foldl
    (fun acc c =>
      if 0 ≤ c.1 ∧ c.1 < state.grid_size ∧ 0 ≤ c.2 ∧ c.2 < state.grid_size ∧
          c ∉ state.visited
      then acc ++ [c] else acc) []

/-- `rules.is_terminal`: all treasures collected, or the mover is stuck and
the other side of a turn-flipped `copy` is stuck too. -/
def is_terminal (state : GameState) : Bool :=
  if state.treasures.isEmpty then true
  else if (get_legal_moves state).isEmpty then
    let temp := state.copy
    let temp2 := { temp with is_human_turn := !temp.is_human_turn }
    (get_legal_moves temp2).isEmpty
  else false

/-- `rules.get_winner`. -/
def get_winner (state : GameState) : Int :=
  if state.human_score > state.ai_score then 1
  else if state.ai_score > state.human_score then -1
  else 0

/-- `rules.manhattan_distance`. -/
def manhattan_distance (pos1 pos2 : Coord) : ℤ :=
  |pos1.1 - pos2.1| + |pos1.2 - pos2.2|

/-- The loop of `rules.get_nearest_treasure`: running
`(nearest_treasure, min_distance)`, with `none` for `float('inf')`. -/
def nearestLoop (pos : Coord) :
    List (Coord × ℤ) → Option Coord × Option ℤ → Option Coord × Option ℤ
  | [], acc => acc
  | (tp, _) :: rest, (best, mind) =>
      let d := manhattan_distance pos tp
      let closer := match mind with
        | none => true
        | some md => decide (d < md)
      if closer then nearestLoop pos rest (some tp, some d)
      else nearestLoop pos rest (best, mind)

/-- `rules.get_nearest_treasure`. -/
def get_nearest_treasure (state : GameState) (position : Coord) :
    Option Coord × Option ℤ :=
  if state.treasures.isEmpty then (none, none)
  else nearestLoop position state.treasures (none, none)

/-- `heuristic.fuzzy_distance_score` (`none` models `float('inf')`). -/
def fuzzy_distance_score (distance : Option ℤ) (max_distance : ℚ) : ℚ :=
  match distance with
  | none => 0
  | some d => 1 - min ((d : ℚ) / max_distance) 1

/-- `heuristic.fuzzy_score_difference`. -/
def fuzzy_score_difference (score_diff : ℤ) (max_diff : ℚ) : ℚ :=
  (max (-1) (min 1 ((score_diff : ℚ) / max_diff)) + 1) / 2

/-- `heuristic.evaluate_state`. -/
def evaluate_state (state : GameState) : ℚ :=
  if state.treasures.isEmpty then
    let score_diff := state.get_score_difference
    if score_diff > 0 then 1000
    else if score_diff < 0 then -1000
    else 0
  else
    let score_diff := state.get_score_difference
    let fuzzy_score := fuzzy_score_difference score_diff 20
    let w1 := fuzzy_score * 0.5
    let ai_dist := (get_nearest_treasure state state.ai_pos).2
    let w2 := w1 + fuzzy_distance_score ai_dist ((state.grid_size : ℚ) * 2) * 0.25
    let human_dist := (get_nearest_treasure state state.human_pos).2
    let w3 := w2 - fuzzy_distance_score human_dist ((state.grid_size : ℚ) * 2) * 0.15
    let temp := state.copy
    let ai_moves := (get_legal_moves { temp with is_human_turn := false }).length
    let human_moves := (get_legal_moves { temp with is_human_turn := true }).length
    let mobility_advantage := ((ai_moves : ℚ) - (human_moves : ℚ)) / 4
    let w4 := w3 + mobility_advantage * 0.1
    (score_diff : ℚ) + w4 * 20

/-- `heuristic.evaluate_simple`. -/
def evaluate_simple (state : GameState) : ℚ :=
  (state.get_score_difference : ℚ)

/-- Search values: rationals extended with `float('-inf')` and `float('inf')`. -/
abbrev V := WithBot (WithTop ℚ)

/-- Embeds a finite evaluation into `V`. -/
def vq (q : ℚ) : V := ((q : WithTop ℚ) : V)

/-- The transposition table: `engine.transposition_table`, keyed by the
structural hash/equality of the state. -/
abbrev TT := List (GameState × V × ℕ)

/-- Dict lookup in the transposition table. -/
def ttLookup : TT → GameState → Option (V × ℕ)
  | [], _ => none
  | (k, v, d) :: rest, s => if k = s then some (v, d) else ttLookup rest s

/-- Dict write `transposition_table[hash(state)] = (value, depth)`. -/
def ttStore (tt : TT) (s : GameState) (v : V) (d : ℕ) : TT :=
  (s, v, d) :: tt

/-- `engine.OPENING_BOOK` as a lookup function on its key triple. -/
def opening_book_lookup (key : Coord × Coord × Bool) : Option Coord :=
  if key = ((0, 0), (3, 3), true) then some (1, 0)
  else if key = ((0, 0), (3, 3), false) then some (2, 3)
  else none

/-- The `min_dist` loop inside `engine.order_moves.move_priority`
(`none` is the initial `float('inf')`). -/
def minDistLoop (move : Coord) (acc : Option ℤ) :
    List (Coord × ℤ) → Option ℤ
  | [] => acc
  | (tp, _) :: rest =>
      let d := |move.1 - tp.1| + |move.2 - tp.2|
      let acc2 := match acc with
        | none => some d
        | some a => some (min a d)
      minDistLoop move acc2 rest

/-- `engine.order_moves.move_priority`. -/
def move_priority (state : GameState) (move : Coord) : ℤ :=
  let p1 : ℤ := match dictLookup state.treasures move with
    | some v => v * 1000
    | none => 0
  if state.treasures.isEmpty then p1
  else match minDistLoop move none state.treasures with
    | some d => p1 - d
    | none => p1

/-- Stable insertion of a move into a descending-priority list: the move
goes after every element of priority ≥ its own, which is how Python's
stable `sorted(..., reverse=True)` places it. -/
def insertDesc (p : Coord → ℤ) : List Coord → Coord → List Coord
  | [], m => [m]
  | x :: xs, m => if p x < p m then m :: x :: xs else x :: insertDesc p xs m

/-- `engine.order_moves`: stable sort by descending `move_priority`. -/
def order_moves (state : GameState) (moves : List Coord) : List Coord :=
  moves.foldl (insertDesc (move_priority state)) []

/-- The maximizing loop of `engine.minimax`: keep the strictly larger
evaluation and its move. -/
def mmLoopMax (f : Coord → V) :
    List Coord → V → Option Coord → V × Option Coord
  | [], best, bm => (best, bm)
  | m :: rest, best, bm =>
      let e := f m
      if best < e then mmLoopMax f rest e (some m)
      else mmLoopMax f rest best bm

/-- The minimizing loop of `engine.minimax`. -/
def mmLoopMin (f : Coord → V) :
    List Coord → V → Option Coord → V × Option Coord
  | [], best, bm => (best, bm)
  | m :: rest, best, bm =>
      let e := f m
      if e < best then mmLoopMin f rest e (some m)
      else mmLoopMin f rest best bm

/-- `engine.minimax`. -/
def minimax (state : GameState) (depth : ℕ) (maximizing_player : Bool) :
    V × Option Coord :=
  match depth with
  | 0 => (vq (evaluate_state state), none)
  | d + 1 =>
      if is_terminal state then (vq (evaluate_state state), none)
      else
        let moves := get_legal_moves state
        if moves.isEmpty then (vq (evaluate_state state), none)
        else if maximizing_player then
          mmLoopMax (fun m => (minimax (state.apply_move m) d false).1) moves ⊥ none
        else
          mmLoopMin (fun m => (minimax (state.apply_move m) d true).1) moves ⊤ none

/-- The maximizing loop of `engine.quiescence_search`: stand-pat then raise
`max_eval` and `alpha`, cutting when `beta <= alpha`. -/
def qLoopMax (f : V → Coord → V) :
    List Coord → V → V → V → V
  | [], maxEval, _, _ => maxEval
  | m :: rest, maxEval, alpha, beta =>
      let e := f alpha m
      let maxEval2 := max maxEval e
      let alpha2 := max alpha e
      if beta ≤ alpha2 then maxEval2
      else qLoopMax f rest maxEval2 alpha2 beta

/-- The minimizing loop of `engine.quiescence_search`. -/
def qLoopMin (f : V → Coord → V) :
    List Coord → V → V → V → V
  | [], minEval, _, _ => minEval
  | m :: rest, minEval, alpha, beta =>
      let e := f beta m
      let minEval2 := min minEval e
      let beta2 := min beta e
      if beta2 ≤ alpha then minEval2
      else qLoopMin f rest minEval2 alpha beta2

/-- `engine.quiescence_search`, with fuel for the recursion on shrinking
treasure maps. -/
def quiescence_search (fuel : ℕ) (state : GameState) (alpha beta : V)
    (maximizing_player : Bool) : V :=
  match fuel with
  | 0 => vq (evaluate_state state)
  | fuel' + 1 =>
      let moves := get_legal_moves state
      let capture_moves := moves.filter (fun m => (dictLookup state.treasures m).isSome)
      if capture_moves.isEmpty then vq (evaluate_state state)
      else if maximizing_player then
        qLoopMax (fun a m => quiescence_search fuel' (state.apply_move m) a beta false)
          capture_moves (vq (evaluate_state state)) alpha beta
      else
        qLoopMin (fun b m => quiescence_search fuel' (state.apply_move m) alpha b true)
          capture_moves (vq (evaluate_state state)) alpha beta

/-- The maximizing loop of `engine.alpha_beta`, threading the table. -/
def abMaxLoop (f : V → TT → Coord → V × Option Coord × TT) :
    List Coord → V → Option Coord → V → V → TT → V × Option Coord × TT
  | [], best, bm, _, _, tt => (best, bm, tt)
  | m :: rest, best, bm, alpha, beta, tt =>
      let r := f alpha tt m
      let e := r.1
      let best2 := if best < e then e else best
      let bm2 := if best < e then some m else bm
      let alpha2 := max alpha e
      if beta ≤ alpha2 then (best2, bm2, r.2.2)
      else abMaxLoop f rest best2 bm2 alpha2 beta r.2.2

/-- The minimizing loop of `engine.alpha_beta`. -/
def abMinLoop (f : V → TT → Coord → V × Option Coord × TT) :
    List Coord → V → Option Coord → V → V → TT → V × Option Coord × TT
  | [], best, bm, _, _, tt => (best, bm, tt)
  | m :: rest, best, bm, alpha, beta, tt =>
      let r := f beta tt m
      let e := r.1
      let best2 := if e < best then e else best
      let bm2 := if e < best then some m else bm
      let beta2 := min beta e
      if beta2 ≤ alpha then (best2, bm2, r.2.2)
      else abMinLoop f rest best2 bm2 alpha beta2 r.2.2

/-- `engine.alpha_beta`: transposition lookup, terminal / depth-0 handling
with quiescence, move ordering, pruned loops, table write-back. -/
def alpha_beta (state : GameState) (depth : ℕ) (alpha beta : V)
    (maximizing_player : Bool) (use_tt : Bool) (tt : TT) :
    V × Option Coord × TT :=
  let hit : Option V :=
    if use_tt then
      match ttLookup tt state with
      | some (v, cd) => if depth ≤ cd then some v else none
      | none => none
    else none
  match hit with
  | some v => (v, none, tt)
  | none =>
    match depth with
    | 0 =>
        let e := if is_terminal state then vq (evaluate_state state)
          else quiescence_search (state.treasures.length + 1) state alpha beta
            maximizing_player
        (e, none, if use_tt then ttStore tt state e 0 else tt)
    | d + 1 =>
        if is_terminal state then
          let e := vq (evaluate_state state)
          (e, none, if use_tt then ttStore tt state e (d + 1) else tt)
        else
          let moves := get_legal_moves state
          if moves.isEmpty then
            let e := vq (evaluate_state state)
            (e, none, if use_tt then ttStore tt state e (d + 1) else tt)
          else
            let ordered := order_moves state moves
            if maximizing_player then
              let r := abMaxLoop
                (fun a t m => alpha_beta (state.apply_move m) d a beta false use_tt t)
                ordered ⊥ ordered.head? alpha beta tt
              (r.1, r.2.1, if use_tt then ttStore r.2.2 state r.1 (d + 1) else r.2.2)
            else
              let r := abMinLoop
                (fun b t m => alpha_beta (state.apply_move m) d alpha b true use_tt t)
                ordered ⊤ ordered.head? alpha beta tt
              (r.1, r.2.1, if use_tt then ttStore r.2.2 state r.1 (d + 1) else r.2.2)

/-- `engine.get_best_move`: single-move shortcut, opening book, adaptive
depth, search dispatch, first-legal-move fallback. -/
def get_best_move (state : GameState) (depth : ℕ) (use_alpha_beta : Bool)
    (tt : TT) : Option Coord :=
  let is_maximizing := !state.is_human_turn
  let moves := get_legal_moves state
  if moves.length = 1 then moves.head?
  else
    let book : Option Coord :=
      if state.visited.card ≤ 2 then
        match opening_book_lookup (state.human_pos, state.ai_pos, state.is_human_turn) with
        | some sm => if sm ∈ moves then some sm else none
        | none => none
      else none
    match book with
    | some sm => some sm
    | none =>
        let depth2 := if state.treasures.length ≤ 2 then min (depth + 2) 8
          else if state.treasures.length ≤ 4 then min (depth + 1) 6
          else depth
        let bm := if use_alpha_beta then
            (alpha_beta state depth2 ⊥ ⊤ is_maximizing true tt).2.1
          else (minimax state depth2 is_maximizing).2
        match bm with
        | some m => some m
        | none => moves.head?

/-- Spec-side rendering of C6: the four orthogonal neighbors in the fixed
order up, down, left, right, filtered to in-bounds unvisited cells. -/
def legal_moves_spec (state : GameState) : List Coord :=
  let p := state.get_current_player_pos
  ([(p.1 - 1, p.2), (p.1 + 1, p.2), (p.1, p.2 - 1), (p.1, p.2 + 1)] : List Coord).filter
    (fun c => decide (0 ≤ c.1 ∧ c.1 < state.grid_size ∧ 0 ≤ c.2 ∧
      c.2 < state.grid_size ∧ c ∉ state.visited))

/-- Spec-side rendering of C5's formula: identical factors except that the
mobility counts are taken on the state itself with only the turn forced,
as the claim words it. -/
def evaluate_spec_C5 (state : GameState) : ℚ :=
  let score_diff := state.get_score_difference
  let f1 := fuzzy_score_difference score_diff 20
  let f2 := fuzzy_distance_score (get_nearest_treasure state state.ai_pos).2
    ((state.grid_size : ℚ) * 2)
  let f3 := fuzzy_distance_score (get_nearest_treasure state state.human_pos).2
    ((state.grid_size : ℚ) * 2)
  let ai_moves := (get_legal_moves { state with is_human_turn := false }).length
  let human_moves := (get_legal_moves { state with is_human_turn := true }).length
  let f4 := ((ai_moves : ℚ) - (human_moves : ℚ)) / 4
  (score_diff : ℚ) + 20 * (0.5 * f1 + 0.25 * f2 + (-0.15) * f3 + 0.1 * f4)

/-- No capture move is reachable at any depth-0 leaf of the search tree:
under this condition quiescence search degenerates to the static
evaluation at every leaf. -/
def quietB (s : GameState) : ℕ → Bool
  | 0 => is_terminal s ||
      ((get_legal_moves s).filter (fun m => (dictLookup s.treasures m).isSome)).isEmpty
  | d + 1 => is_terminal s ||
      (get_legal_moves s).all (fun m => quietB (s.apply_move m) d)

/-- Heap-level rendering of `apply_move` for the purity claim: objects live
at list indices, `copy` allocates, and every subsequent statement of the
method writes through the new object's address. -/
def apply_move_heap (h : List GameState) (a : ℕ) (move : Coord) :
    List GameState × Option ℕ :=
  match h[a]? with
  | none => (h, none)
  | some self =>
      let h1 := h ++ [self.copy]
      let na := h.length
      let h2 := match h1[na]? with
        | some o => h1.set na (if self.is_human_turn then { o with human_pos := move }
            else { o with ai_pos := move })
        | none => h1
      let h3 := match h2[na]? with
        | some o => h2.set na { o with visited := insert move o.visited }
        | none => h2
      let h4 := match h3[na]? with
        | some o => h3.set na (match dictLookup o.treasures move with
            | some v =>
                let collected := if self.is_human_turn
                  then { o with human_score := o.human_score + v }
                  else { o with ai_score := o.ai_score + v }
                { collected with treasures := dictErase collected.treasures move }
            | none => o)
        | none => h3
      let h5 := match h4[na]? with
        | some o => h4.set na { o with is_human_turn := !self.is_human_turn }
        | none => h4
      (h5, some na)

/-- Initial 4×4 state with one treasure, used in several concrete runs. -/
def exS0 : GameState := mkGameState 4 (0, 0) (3, 3) 0 0 [((0, 2), 5)] ∅ true

/-- `exS0` after the legal human move to (1,0). -/
def exS1 : GameState := exS0.apply_move (1, 0)

/-- `exS1` after the legal AI move to (2,3): `(0,0)` silently leaves `visited`. -/
def exS2 : GameState := exS1.apply_move (2, 3)

/-- A 3×3 state in which both players are walled in by `visited` while a
treasure remains: the claimed terminal check and the code disagree here. -/
def exC2 : GameState :=
  ⟨3, (0, 0), (2, 2), 0, 0, [((0, 2), 1)],
    {(0, 0), (1, 0), (0, 1), (2, 2), (1, 2), (2, 1)}, true⟩

/-- A 2×2 state with the AI to move next to a treasure: at depth 0 plain
minimax returns the static evaluation while alpha-beta runs quiescence. -/
def exC4 : GameState := mkGameState 2 (0, 0) (1, 1) 0 0 [((0, 1), 5)] ∅ false

/-- A 2×2 state whose only treasure is unreachable, so no capture move ever
exists and the search tree is quiet at every leaf. -/
def exC4w : GameState := mkGameState 2 (0, 0) (1, 1) 0 0 [((9, 9), 7)] ∅ true

/-- The worked example of the spec: 3×3, treasures at (0,2) and (2,0),
players at opposite corners, first player to move. -/
def exC6 : GameState :=
  mkGameState 3 (0, 0) (2, 2) 0 0 [((0, 2), 5), ((2, 0), 3)] ∅ true

/-- The worked example of the spec: empty treasure map, AI ahead 8 to 0. -/
def exC7 : GameState := mkGameState 4 (0, 0) (3, 3) 0 8 [] ∅ true


/-! Order-theoretic facts about the value domain `V` and its embedding `vq`. -/

theorem vq_inj {a b : ℚ} : vq a = vq b ↔ a = b := by
  unfold vq
  rw [WithBot.coe_inj, WithTop.coe_eq_coe]

theorem vq_le_vq {a b : ℚ} : vq a ≤ vq b ↔ a ≤ b := by
  unfold vq
  rw [WithBot.coe_le_coe, WithTop.coe_le_coe]

theorem vq_lt_top (a : ℚ) : vq a < (⊤ : V) := by
  unfold vq
  rw [← WithBot.coe_top, WithBot.coe_lt_coe]
  exact WithTop.coe_lt_top a

theorem max_vq (a b : ℚ) : max (vq a) (vq b) = vq (max a b) := by
  rcases le_total a b with h | h
  · rw [max_eq_right (vq_le_vq.mpr h), max_eq_right h]
  · rw [max_eq_left (vq_le_vq.mpr h), max_eq_left h]

theorem ite_lt_max_eq (a b : V) : (if a < b then b else a) = max a b := by
  rcases le_or_lt b a with h | h
  · rw [if_neg (not_lt.mpr h), max_eq_left h]
  · rw [if_pos h, max_eq_right (le_of_lt h)]

theorem ite_lt_min_eq (a b : V) : (if b < a then b else a) = min a b := by
  rcases le_or_lt a b with h | h
  · rw [if_neg (not_lt.mpr h), min_eq_left h]
  · rw [if_pos h, min_eq_right (le_of_lt h)]

/-! Facts about folded running maxima/minima, the shape in which the
search loops accumulate their values. -/

theorem foldl_max_le_seed (v : Coord → V) :
    ∀ (l : List Coord) (a : V), a ≤ l.foldl (fun b m => max b (v m)) a := by
  intro l
  induction l with
  | nil => intro a; exact le_refl a
  | cons m rest ih =>
      intro a
      exact le_trans le_sup_left (ih (max a (v m)))

theorem foldl_max_le_mem (v : Coord → V) :
    ∀ (l : List Coord) (a : V) (m : Coord), m ∈ l →
      v m ≤ l.foldl (fun b m => max b (v m)) a := by
  intro l
  induction l with
  | nil => intro a m hm; exact absurd hm (List.not_mem_nil m)
  | cons x rest ih =>
      intro a m hm
      rcases List.mem_cons.mp hm with h | h
      · subst h
        exact le_trans le_sup_right (foldl_max_le_seed v rest (max a (v m)))
      · exact ih (max a (v x)) m h

theorem foldl_max_le (v : Coord → V) :
    ∀ (l : List Coord) (a c : V), a ≤ c → (∀ m ∈ l, v m ≤ c) →
      l.foldl (fun b m => max b (v m)) a ≤ c := by
  intro l
  induction l with
  | nil => intro a c ha _; exact ha
  | cons x rest ih =>
      intro a c ha hm
      exact ih (max a (v x)) c (sup_le ha (hm x (List.mem_cons_self x rest)))
        (fun m h => hm m (List.mem_cons_of_mem x h))

theorem foldl_max_mono (v : Coord → V) :
    ∀ (l : List Coord) (a b : V), a ≤ b →
      l.foldl (fun b m => max b (v m)) a ≤ l.foldl (fun b m => max b (v m)) b := by
  intro l
  induction l with
  | nil => intro a b h; exact h
  | cons x rest ih =>
      intro a b h
      exact ih (max a (v x)) (max b (v x)) (sup_le_sup_right h (v x))

theorem foldl_max_min_distrib (v : Coord → V) (β : V) :
    ∀ (l : List Coord) (a : V),
      min (l.foldl (fun b m => max b (v m)) a) β =
        l.foldl (fun b m => max b (min (v m) β)) (min a β) := by
  intro l
  induction l with
  | nil => intro a; rfl
  | cons x rest ih =>
      intro a
      simp only [List.foldl_cons]
      rw [ih (max a (v x)), min_max_distrib_right]

theorem foldl_min_ge_seed (v : Coord → V) :
    ∀ (l : List Coord) (a : V), l.foldl (fun b m => min b (v m)) a ≤ a := by
  intro l
  induction l with
  | nil => intro a; exact le_refl a
  | cons m rest ih =>
      intro a
      exact le_trans (ih (min a (v m))) inf_le_left

theorem foldl_min_ge_mem (v : Coord → V) :
    ∀ (l : List Coord) (a : V) (m : Coord), m ∈ l →
      l.foldl (fun b m => min b (v m)) a ≤ v m := by
  intro l
  induction l with
  | nil => intro a m hm; exact absurd hm (List.not_mem_nil m)
  | cons x rest ih =>
      intro a m hm
      rcases List.mem_cons.mp hm with h | h
      · subst h
        exact le_trans (foldl_min_ge_seed v rest (min a (v m))) inf_le_right
      · exact ih (min a (v x)) m h

theorem le_foldl_min (v : Coord → V) :
    ∀ (l : List Coord) (a c : V), c ≤ a → (∀ m ∈ l, c ≤ v m) →
      c ≤ l.foldl (fun b m => min b (v m)) a := by
  intro l
  induction l with
  | nil => intro a c ha _; exact ha
  | cons x rest ih =>
      intro a c ha hm
      exact ih (min a (v x)) c (le_inf ha (hm x (List.mem_cons_self x rest)))
        (fun m h => hm m (List.mem_cons_of_mem x h))

theorem foldl_min_mono (v : Coord → V) :
    ∀ (l : List Coord) (a b : V), a ≤ b →
      l.foldl (fun b m => min b (v m)) a ≤ l.foldl (fun b m => min b (v m)) b := by
  intro l
  induction l with
  | nil => intro a b h; exact h
  | cons x rest ih =>
      intro a b h
      exact ih (min a (v x)) (min b (v x)) (inf_le_inf_right (v x) h)

theorem foldl_min_max_distrib (v : Coord → V) (α : V) :
    ∀ (l : List Coord) (a : V),
      max (l.foldl (fun b m => min b (v m)) a) α =
        l.foldl (fun b m => min b (max (v m) α)) (max a α) := by
  intro l
  induction l with
  | nil => intro a; rfl
  | cons x rest ih =>
      intro a
      simp only [List.foldl_cons]
      rw [ih (min a (v x)), max_min_distrib_right]

theorem foldl_min_min_assoc (v : Coord → V) (c : V) :
    ∀ (l : List Coord) (a : V),
      min (l.foldl (fun b m => min b (v m)) a) c =
        l.foldl (fun b m => min b (v m)) (min a c) := by
  intro l
  induction l with
  | nil => intro a; rfl
  | cons x rest ih =>
      intro a
      simp only [List.foldl_cons]
      rw [ih (min a (v x)), inf_right_comm]

theorem foldl_max_perm (v : Coord → V) {l l' : List Coord} (h : l.Perm l') :
    ∀ init : V, l.foldl (fun b m => max b (v m)) init =
      l'.foldl (fun b m => max b (v m)) init := by
  induction h with
  | nil => intro init; rfl
  | cons x _ ih => intro init; simp only [List.foldl_cons]; exact ih _
  | swap x y l => intro init; simp only [List.foldl_cons]; rw [sup_right_comm]
  | trans _ _ ih1 ih2 => intro init; rw [ih1, ih2]

theorem foldl_min_perm (v : Coord → V) {l l' : List Coord} (h : l.Perm l') :
    ∀ init : V, l.foldl (fun b m => min b (v m)) init =
      l'.foldl (fun b m => min b (v m)) init := by
  induction h with
  | nil => intro init; rfl
  | cons x _ ih => intro init; simp only [List.foldl_cons]; exact ih _
  | swap x y l => intro init; simp only [List.foldl_cons]; rw [inf_right_comm]
  | trans _ _ ih1 ih2 => intro init; rw [ih1, ih2]

/-! Move ordering only permutes the legal moves. -/

theorem insertDesc_perm (p : Coord → ℤ) :
    ∀ (l : List Coord) (m : Coord), (insertDesc p l m).Perm (m :: l) := by
  intro l
  induction l with
  | nil => intro m; exact List.Perm.refl _
  | cons x xs ih =>
      intro m
      rw [insertDesc]
      by_cases h : p x < p m
      · rw [if_pos h]
      · rw [if_neg h]
        exact List.Perm.trans (List.Perm.cons x (ih m)) (List.Perm.swap m x xs)

theorem order_moves_aux_perm (p : Coord → ℤ) :
    ∀ (moves acc : List Coord),
      (moves.foldl (insertDesc p) acc).Perm (acc ++ moves) := by
  intro moves
  induction moves with
  | nil => intro acc; simp
  | cons m rest ih =>
      intro acc
      simp only [List.foldl_cons]
      refine List.Perm.trans (ih (insertDesc p acc m)) ?_
      refine List.Perm.trans (List.Perm.append_right rest (insertDesc_perm p acc m)) ?_
      exact (List.perm_middle).symm

theorem order_moves_perm (s : GameState) (moves : List Coord) :
    (order_moves s moves).Perm moves := by
  have h := order_moves_aux_perm (move_priority s) moves []
  simpa [order_moves] using h

/-! The value computed by the plain minimax loops is a folded extremum. -/

theorem mmLoopMax_fst (f : Coord → V) :
    ∀ (l : List Coord) (best : V) (bm : Option Coord),
      (mmLoopMax f l best bm).1 = l.foldl (fun b m => max b (f m)) best := by
  intro l
  induction l with
  | nil => intro best bm; rfl
  | cons m rest ih =>
      intro best bm
      rw [mmLoopMax, List.foldl_cons]
      by_cases h : best < f m
      · rw [if_pos h, ih, max_eq_right (le_of_lt h)]
      · rw [if_neg h, ih, max_eq_left (not_lt.mp h)]

theorem mmLoopMin_fst (f : Coord → V) :
    ∀ (l : List Coord) (best : V) (bm : Option Coord),
      (mmLoopMin f l best bm).1 = l.foldl (fun b m => min b (f m)) best := by
  intro l
  induction l with
  | nil => intro best bm; rfl
  | cons m rest ih =>
      intro best bm
      rw [mmLoopMin, List.foldl_cons]
      by_cases h : f m < best
      · rw [if_pos h, ih, min_eq_right (le_of_lt h)]
      · rw [if_neg h, ih, min_eq_left (not_lt.mp h)]

/-! Fail-soft bounds for the pruned alpha-beta loops: with children whose
values satisfy the window bounds, the loop result brackets the true folded
extremum between `min _ β` and `max _ α`, for any prefix cut by a cutoff. -/

theorem abMaxLoop_bound (v : Coord → V) (β α₀ : V)
    (f : V → TT → Coord → V × Option Coord × TT) :
    ∀ (l : List Coord) (best : V) (bm : Option Coord) (alpha : V) (tt : TT),
    (∀ m ∈ l, ∀ (a : V) (t : TT), a < β →
        min (v m) β ≤ (f a t m).1 ∧ (f a t m).1 ≤ max (v m) a) →
    alpha = max α₀ best → alpha < β →
    min (l.foldl (fun b m => max b (v m)) best) β ≤ (abMaxLoop f l best bm alpha β tt).1 ∧
    (abMaxLoop f l best bm alpha β tt).1 ≤ max (l.foldl (fun b m => max b (v m)) best) α₀ := by
  intro l
  induction l with
  | nil =>
      intro best bm alpha tt _ _ _
      exact ⟨min_le_left _ _, le_max_left _ _⟩
  | cons m rest ih =>
      intro best bm alpha tt hmem hinv hab
      have hα₀β : α₀ < β := lt_of_le_of_lt (hinv ▸ le_max_left α₀ best) hab
      obtain ⟨he1, he2⟩ := hmem m (List.mem_cons_self m rest) alpha tt hab
      set e := (f alpha tt m).1 with hedef
      set T := rest.foldl (fun b m' => max b (v m')) (max best (v m)) with hT
      have hfold : (m :: rest).foldl (fun b m' => max b (v m')) best = T := by
        simp only [List.foldl_cons, hT]
      have hbT : best ≤ T := le_trans le_sup_left (foldl_max_le_seed v rest _)
      have hvT : v m ≤ T := le_trans le_sup_right (foldl_max_le_seed v rest _)
      have heT : e ≤ max T α₀ := by
        refine he2.trans ?_
        rw [hinv]
        exact sup_le (hvT.trans le_sup_left)
          (sup_le le_sup_right (hbT.trans le_sup_left))
      have hb2T : max best e ≤ max T α₀ := sup_le (hbT.trans le_sup_left) heT
      have hb2 : (if best < e then e else best) = max best e := ite_lt_max_eq best e
      have ha2 : max alpha e = max α₀ (max best e) := by
        rw [hinv, sup_assoc]
      rw [abMaxLoop]
      simp only [← hedef, hb2, hfold]
      by_cases hcut : β ≤ max alpha e
      · rw [if_pos hcut]
        constructor
        · refine le_trans (min_le_right T β) ?_
          rcases le_max_iff.mp (ha2 ▸ hcut) with h | h
          · exact absurd h (not_le.mpr hα₀β)
          · exact h
        · exact hb2T
      · rw [if_neg hcut]
        have hab2 : max alpha e < β := not_le.mp hcut
        have hmem2 : ∀ m' ∈ rest, ∀ (a : V) (t : TT), a < β →
            min (v m') β ≤ (f a t m').1 ∧ (f a t m').1 ≤ max (v m') a :=
          fun m' hm' => hmem m' (List.mem_cons_of_mem m hm')
        obtain ⟨ihl, ihu⟩ := ih (max best e) (if best < e then some m else bm)
          (max alpha e) (f alpha tt m).2.2 hmem2 ha2 hab2
        set T' := rest.foldl (fun b m' => max b (v m')) (max best e) with hT'
        constructor
        · refine le_trans ?_ ihl
          rw [hT, hT', foldl_max_min_distrib, foldl_max_min_distrib]
          refine foldl_max_mono _ rest _ _ ?_
          rw [min_max_distrib_right, min_max_distrib_right]
          refine sup_le le_sup_left ?_
          exact le_trans (le_min he1 (min_le_right (v m) β)) le_sup_right
        · refine le_trans ihu ?_
          refine sup_le ?_ le_sup_right
          refine foldl_max_le v rest _ _ hb2T ?_
          intro m' hm'
          exact le_trans (foldl_max_le_mem v rest (max best (v m)) m' hm') le_sup_left

theorem abMinLoop_bound (v : Coord → V) (α β₀ : V)
    (f : V → TT → Coord → V × Option Coord × TT) :
    ∀ (l : List Coord) (best : V) (bm : Option Coord) (beta : V) (tt : TT),
    (∀ m ∈ l, ∀ (b : V) (t : TT), α < b →
        min (v m) b ≤ (f b t m).1 ∧ (f b t m).1 ≤ max (v m) α) →
    beta = min β₀ best → α < beta →
    min (l.foldl (fun b m => min b (v m)) best) β₀ ≤ (abMinLoop f l best bm α beta tt).1 ∧
    (abMinLoop f l best bm α beta tt).1 ≤ max (l.foldl (fun b m => min b (v m)) best) α := by
  intro l
  induction l with
  | nil =>
      intro best bm beta tt _ _ _
      exact ⟨min_le_left _ _, le_max_left _ _⟩
  | cons m rest ih =>
      intro best bm beta tt hmem hinv hab
      have hαβ₀ : α < β₀ := lt_of_lt_of_le hab (hinv ▸ min_le_left β₀ best)
      obtain ⟨he1, he2⟩ := hmem m (List.mem_cons_self m rest) beta tt hab
      set e := (f beta tt m).1 with hedef
      set T := rest.foldl (fun b m' => min b (v m')) (min best (v m)) with hT
      have hfold : (m :: rest).foldl (fun b m' => min b (v m')) best = T := by
        simp only [List.foldl_cons, hT]
      have hbT : T ≤ best := le_trans (foldl_min_ge_seed v rest _) inf_le_left
      have hvT : T ≤ v m := le_trans (foldl_min_ge_seed v rest _) inf_le_right
      have heT : min T β₀ ≤ e := by
        refine le_trans ?_ he1
        rw [hinv]
        exact le_min (min_le_left T β₀ |>.trans hvT)
          (le_min (min_le_right T β₀) (min_le_left T β₀ |>.trans hbT))
      have hb2T : min T β₀ ≤ min best e :=
        le_min ((min_le_left T β₀).trans hbT) heT
      have hb2 : (if e < best then e else best) = min best e := ite_lt_min_eq best e
      have ha2 : min beta e = min β₀ (min best e) := by
        rw [hinv, inf_assoc]
      rw [abMinLoop]
      simp only [← hedef, hb2, hfold]
      by_cases hcut : min beta e ≤ α
      · rw [if_pos hcut]
        constructor
        · exact hb2T
        · refine le_trans ?_ (le_max_right T α)
          rcases min_le_iff.mp (ha2 ▸ hcut) with h | h
          · exact absurd h (not_le.mpr hαβ₀)
          · exact h
      · rw [if_neg hcut]
        have hab2 : α < min beta e := not_le.mp hcut
        have hmem2 : ∀ m' ∈ rest, ∀ (b : V) (t : TT), α < b →
            min (v m') b ≤ (f b t m').1 ∧ (f b t m').1 ≤ max (v m') α :=
          fun m' hm' => hmem m' (List.mem_cons_of_mem m hm')
        obtain ⟨ihl, ihu⟩ := ih (min best e) (if e < best then some m else bm)
          (min beta e) (f beta tt m).2.2 hmem2 ha2 hab2
        set T' := rest.foldl (fun b m' => min b (v m')) (min best e) with hT'
        constructor
        · refine le_trans ?_ ihl
          rw [hT, hT', foldl_min_min_assoc, foldl_min_min_assoc]
          refine foldl_min_mono _ rest _ _ ?_
          refine le_min (le_min ?_ ?_) (min_le_right _ _)
          · exact (min_le_left _ _).trans (min_le_left _ _)
          · refine le_trans ?_ he1
            rw [hinv]
            refine le_min ?_ ?_
            · exact (min_le_left _ _).trans (min_le_right _ _)
            · exact le_min (min_le_right _ _) ((min_le_left _ _).trans (min_le_left _ _))
        · refine le_trans ihu ?_
          rw [hT, hT', foldl_min_max_distrib, foldl_min_max_distrib]
          refine foldl_min_mono _ rest _ _ ?_
          rw [max_min_distrib_right, max_min_distrib_right]
          refine inf_le_inf_left _ ?_
          exact sup_le (he2.trans (sup_le le_sup_left le_sup_right)) le_sup_right

/-! Unfolding equations for the two searches at each node shape. -/

theorem alpha_beta_zero_eq (s : GameState) (α β : V) (mx : Bool) (tt : TT) :
    (alpha_beta s 0 α β mx false tt).1 =
      if is_terminal s then vq (evaluate_state s)
      else quiescence_search (s.treasures.length + 1) s α β mx := rfl

theorem minimax_zero_eq (s : GameState) (mx : Bool) :
    (minimax s 0 mx).1 = vq (evaluate_state s) := rfl

theorem quiescence_nocap_eq (fuel : ℕ) (s : GameState)
    (h : ((get_legal_moves s).filter
      (fun m => (dictLookup s.treasures m).isSome)).isEmpty = true)
    (α β : V) (mx : Bool) :
    quiescence_search (fuel + 1) s α β mx = vq (evaluate_state s) := by
  rw [quiescence_search]
  simp [h]

theorem alpha_beta_succ_term_eq (s : GameState) (d : ℕ) (α β : V) (mx : Bool) (tt : TT)
    (ht : is_terminal s = true) :
    (alpha_beta s (d + 1) α β mx false tt).1 = vq (evaluate_state s) := by
  rw [alpha_beta]
  simp [ht]

theorem minimax_succ_term_eq (s : GameState) (d : ℕ) (mx : Bool)
    (ht : is_terminal s = true) :
    (minimax s (d + 1) mx).1 = vq (evaluate_state s) := by
  rw [minimax]
  simp [ht]

theorem alpha_beta_succ_nomoves_eq (s : GameState) (d : ℕ) (α β : V) (mx : Bool) (tt : TT)
    (ht : is_terminal s = false) (hm : (get_legal_moves s).isEmpty = true) :
    (alpha_beta s (d + 1) α β mx false tt).1 = vq (evaluate_state s) := by
  rw [alpha_beta]
  simp [ht, hm]

theorem minimax_succ_nomoves_eq (s : GameState) (d : ℕ) (mx : Bool)
    (ht : is_terminal s = false) (hm : (get_legal_moves s).isEmpty = true) :
    (minimax s (d + 1) mx).1 = vq (evaluate_state s) := by
  rw [minimax]
  simp [ht, hm]

theorem alpha_beta_succ_max_eq (s : GameState) (d : ℕ) (α β : V) (tt : TT)
    (ht : is_terminal s = false) (hm : (get_legal_moves s).isEmpty = false) :
    (alpha_beta s (d + 1) α β true false tt).1 =
      (abMaxLoop (fun a t m => alpha_beta (s.apply_move m) d a β false false t)
        (order_moves s (get_legal_moves s)) ⊥
        (order_moves s (get_legal_moves s)).head? α β tt).1 := by
  rw [alpha_beta]
  simp [ht, hm]

theorem alpha_beta_succ_min_eq (s : GameState) (d : ℕ) (α β : V) (tt : TT)
    (ht : is_terminal s = false) (hm : (get_legal_moves s).isEmpty = false) :
    (alpha_beta s (d + 1) α β false false tt).1 =
      (abMinLoop (fun b t m => alpha_beta (s.apply_move m) d α b true false t)
        (order_moves s (get_legal_moves s)) ⊤
        (order_moves s (get_legal_moves s)).head? α β tt).1 := by
  rw [alpha_beta]
  simp [ht, hm]

theorem minimax_succ_max_eq (s : GameState) (d : ℕ)
    (ht : is_terminal s = false) (hm : (get_legal_moves s).isEmpty = false) :
    (minimax s (d + 1) true).1 =
      (get_legal_moves s).foldl
        (fun b m => max b ((minimax (s.apply_move m) d false).1)) ⊥ := by
  rw [minimax]
  simp only [ht, hm, Bool.false_eq_true, if_false, if_true]
  exact mmLoopMax_fst _ _ _ _

theorem minimax_succ_min_eq (s : GameState) (d : ℕ)
    (ht : is_terminal s = false) (hm : (get_legal_moves s).isEmpty = false) :
    (minimax s (d + 1) false).1 =
      (get_legal_moves s).foldl
        (fun b m => min b ((minimax (s.apply_move m) d true).1)) ⊤ := by
  rw [minimax]
  simp only [ht, hm, Bool.false_eq_true, if_false, if_true]
  exact mmLoopMin_fst _ _ _ _

/-! The central soundness result behind C4: along a quiet search tree, the
alpha-beta value lies between `min v β` and `max v α` for the minimax value
`v`, by induction on depth with the fail-soft loop bounds. -/

theorem alpha_beta_minimax_bound :
    ∀ (d : ℕ) (s : GameState) (mx : Bool) (α β : V) (tt : TT),
      quietB s d = true → α < β →
      min ((minimax s d mx).1) β ≤ (alpha_beta s d α β mx false tt).1 ∧
      (alpha_beta s d α β mx false tt).1 ≤ max ((minimax s d mx).1) α := by
  intro d
  induction d with
  | zero =>
      intro s mx α β tt hq _
      rw [alpha_beta_zero_eq, minimax_zero_eq]
      by_cases ht : is_terminal s
      · rw [if_pos ht]
        exact ⟨min_le_left _ _, le_max_left _ _⟩
      · rw [if_neg ht]
        have ht' : is_terminal s = false := by
          simpa using ht
        have hcap : ((get_legal_moves s).filter
            (fun m => (dictLookup s.treasures m).isSome)).isEmpty = true := by
          have h0 := hq
          rw [quietB] at h0
          simpa [ht'] using h0
        rw [quiescence_nocap_eq _ _ hcap]
        exact ⟨min_le_left _ _, le_max_left _ _⟩
  | succ d ih =>
      intro s mx α β tt hq hab
      by_cases ht : is_terminal s
      · rw [alpha_beta_succ_term_eq _ _ _ _ _ _ ht, minimax_succ_term_eq _ _ _ ht]
        exact ⟨min_le_left _ _, le_max_left _ _⟩
      · have ht' : is_terminal s = false := by simpa using ht
        by_cases hm : (get_legal_moves s).isEmpty
        · rw [alpha_beta_succ_nomoves_eq _ _ _ _ _ _ ht' hm,
            minimax_succ_nomoves_eq _ _ _ ht' hm]
          exact ⟨min_le_left _ _, le_max_left _ _⟩
        · have hm' : (get_legal_moves s).isEmpty = false := by simpa using hm
          have hquiet : ∀ m ∈ get_legal_moves s, quietB (s.apply_move m) d = true := by
            have h0 := hq
            rw [quietB] at h0
            simp only [ht', Bool.false_or] at h0
            exact fun m hmem => List.all_eq_true.mp h0 m hmem
          have hperm := order_moves_perm s (get_legal_moves s)
          cases mx with
          | true =>
              rw [alpha_beta_succ_max_eq _ _ _ _ _ ht' hm',
                minimax_succ_max_eq _ _ ht' hm']
              have hmem : ∀ m ∈ order_moves s (get_legal_moves s), ∀ (a : V) (t : TT),
                  a < β →
                  min ((minimax (s.apply_move m) d false).1) β ≤
                    (alpha_beta (s.apply_move m) d a β false false t).1 ∧
                  (alpha_beta (s.apply_move m) d a β false false t).1 ≤
                    max ((minimax (s.apply_move m) d false).1) a := by
                intro m hmem a t hb
                exact ih (s.apply_move m) false a β t
                  (hquiet m (hperm.mem_iff.mp hmem)) hb
              have hb := abMaxLoop_bound
                (fun m => (minimax (s.apply_move m) d false).1) β α
                (fun a t m => alpha_beta (s.apply_move m) d a β false false t)
                (order_moves s (get_legal_moves s)) ⊥
                (order_moves s (get_legal_moves s)).head? α tt hmem
                (sup_bot_eq α).symm hab
              rwa [foldl_max_perm _ hperm] at hb
          | false =>
              rw [alpha_beta_succ_min_eq _ _ _ _ _ ht' hm',
                minimax_succ_min_eq _ _ ht' hm']
              have hmem : ∀ m ∈ order_moves s (get_legal_moves s), ∀ (b : V) (t : TT),
                  α < b →
                  min ((minimax (s.apply_move m) d true).1) b ≤
                    (alpha_beta (s.apply_move m) d α b true false t).1 ∧
                  (alpha_beta (s.apply_move m) d α b true false t).1 ≤
                    max ((minimax (s.apply_move m) d true).1) α := by
                intro m hmem b t hb
                exact ih (s.apply_move m) true α b t
                  (hquiet m (hperm.mem_iff.mp hmem)) hb
              have hb := abMinLoop_bound
                (fun m => (minimax (s.apply_move m) d true).1) α β
                (fun b t m => alpha_beta (s.apply_move m) d α b true false t)
                (order_moves s (get_legal_moves s)) ⊤
                (order_moves s (get_legal_moves s)).head? β tt hmem
                (inf_top_eq β).symm hab
              rwa [foldl_min_perm _ hperm] at hb

/-! Which move the searches report: always the running best, hence either the
initial default or a member of the list being looped over. -/

theorem mmLoopMax_move (f : Coord → V) :
    ∀ (l : List Coord) (best : V) (bm : Option Coord),
      (mmLoopMax f l best bm).2 = bm ∨ ∃ m ∈ l, (mmLoopMax f l best bm).2 = some m := by
  intro l
  induction l with
  | nil => intro best bm; exact Or.inl rfl
  | cons x rest ih =>
      intro best bm
      rw [mmLoopMax]
      by_cases h : best < f x
      · rw [if_pos h]
        rcases ih (f x) (some x) with h2 | ⟨m, hm, h2⟩
        · exact Or.inr ⟨x, List.mem_cons_self x rest, h2⟩
        · exact Or.inr ⟨m, List.mem_cons_of_mem x hm, h2⟩
      · rw [if_neg h]
        rcases ih best bm with h2 | ⟨m, hm, h2⟩
        · exact Or.inl h2
        · exact Or.inr ⟨m, List.mem_cons_of_mem x hm, h2⟩

theorem mmLoopMin_move (f : Coord → V) :
    ∀ (l : List Coord) (best : V) (bm : Option Coord),
      (mmLoopMin f l best bm).2 = bm ∨ ∃ m ∈ l, (mmLoopMin f l best bm).2 = some m := by
  intro l
  induction l with
  | nil => intro best bm; exact Or.inl rfl
  | cons x rest ih =>
      intro best bm
      rw [mmLoopMin]
      by_cases h : f x < best
      · rw [if_pos h]
        rcases ih (f x) (some x) with h2 | ⟨m, hm, h2⟩
        · exact Or.inr ⟨x, List.mem_cons_self x rest, h2⟩
        · exact Or.inr ⟨m, List.mem_cons_of_mem x hm, h2⟩
      · rw [if_neg h]
        rcases ih best bm with h2 | ⟨m, hm, h2⟩
        · exact Or.inl h2
        · exact Or.inr ⟨m, List.mem_cons_of_mem x hm, h2⟩

theorem abMaxLoop_move (f : V → TT → Coord → V × Option Coord × TT) :
    ∀ (l : List Coord) (best : V) (bm : Option Coord) (alpha beta : V) (tt : TT),
      (abMaxLoop f l best bm alpha beta tt).2.1 = bm ∨
        ∃ m ∈ l, (abMaxLoop f l best bm alpha beta tt).2.1 = some m := by
  intro l
  induction l with
  | nil => intro best bm alpha beta tt; exact Or.inl rfl
  | cons x rest ih =>
      intro best bm alpha beta tt
      rw [abMaxLoop]
      by_cases hcut : beta ≤ max alpha (f alpha tt x).1
      · simp only [if_pos hcut]
        by_cases h : best < (f alpha tt x).1
        · simp only [if_pos h]
          exact Or.inr ⟨x, List.mem_cons_self x rest, rfl⟩
        · simp only [if_neg h]
          exact Or.inl trivial
      · simp only [if_neg hcut]
        rcases ih (if best < (f alpha tt x).1 then (f alpha tt x).1 else best)
            (if best < (f alpha tt x).1 then some x else bm)
            (max alpha (f alpha tt x).1) beta (f alpha tt x).2.2 with h2 | ⟨m, hm, h2⟩
        · by_cases h : best < (f alpha tt x).1
          · simp only [if_pos h] at h2 ⊢
            exact Or.inr ⟨x, List.mem_cons_self x rest, h2⟩
          · simp only [if_neg h] at h2 ⊢
            exact Or.inl h2
        · exact Or.inr ⟨m, List.mem_cons_of_mem x hm, h2⟩

theorem abMinLoop_move (f : V → TT → Coord → V × Option Coord × TT) :
    ∀ (l : List Coord) (best : V) (bm : Option Coord) (alpha beta : V) (tt : TT),
      (abMinLoop f l best bm alpha beta tt).2.1 = bm ∨
        ∃ m ∈ l, (abMinLoop f l best bm alpha beta tt).2.1 = some m := by
  intro l
  induction l with
  | nil => intro best bm alpha beta tt; exact Or.inl rfl
  | cons x rest ih =>
      intro best bm alpha beta tt
      rw [abMinLoop]
      by_cases hcut : min beta (f beta tt x).1 ≤ alpha
      · simp only [if_pos hcut]
        by_cases h : (f beta tt x).1 < best
        · simp only [if_pos h]
          exact Or.inr ⟨x, List.mem_cons_self x rest, rfl⟩
        · simp only [if_neg h]
          exact Or.inl trivial
      · simp only [if_neg hcut]
        rcases ih (if (f beta tt x).1 < best then (f beta tt x).1 else best)
            (if (f beta tt x).1 < best then some x else bm)
            alpha (min beta (f beta tt x).1) (f beta tt x).2.2 with h2 | ⟨m, hm, h2⟩
        · by_cases h : (f beta tt x).1 < best
          · simp only [if_pos h] at h2 ⊢
            exact Or.inr ⟨x, List.mem_cons_self x rest, h2⟩
          · simp only [if_neg h] at h2 ⊢
            exact Or.inl h2
        · exact Or.inr ⟨m, List.mem_cons_of_mem x hm, h2⟩

theorem head_mem_of_ne_nil {l : List Coord} (h : l ≠ []) :
    ∃ m, l.head? = some m ∧ m ∈ l := by
  cases l with
  | nil => exact absurd rfl h
  | cons a t => exact ⟨a, rfl, List.mem_cons_self a t⟩

theorem minimax_move_mem (s : GameState) (d : ℕ) (mx : Bool) :
    (minimax s d mx).2 = none ∨
      ∃ m ∈ get_legal_moves s, (minimax s d mx).2 = some m := by
  cases d with
  | zero => exact Or.inl rfl
  | succ d' =>
      rw [minimax]
      by_cases ht : is_terminal s
      · rw [if_pos ht]
        exact Or.inl rfl
      · rw [if_neg ht]
        by_cases hm : (get_legal_moves s).isEmpty
        · rw [if_pos hm]
          exact Or.inl rfl
        · rw [if_neg hm]
          by_cases hmx : mx
          · rw [if_pos hmx]
            exact mmLoopMax_move _ _ _ _
          · rw [if_neg hmx]
            exact mmLoopMin_move _ _ _ _

theorem ordered_ne_nil (s : GameState) (hm : (get_legal_moves s).isEmpty = false) :
    order_moves s (get_legal_moves s) ≠ [] := by
  intro h
  have hperm := order_moves_perm s (get_legal_moves s)
  rw [h] at hperm
  have := hperm.symm.eq_nil
  rw [this] at hm
  simp at hm

theorem alpha_beta_move_mem (s : GameState) (d : ℕ) (α β : V) (mx use_tt : Bool)
    (tt : TT) :
    (alpha_beta s d α β mx use_tt tt).2.1 = none ∨
      ∃ m ∈ get_legal_moves s, (alpha_beta s d α β mx use_tt tt).2.1 = some m := by
  cases d with
  | zero =>
      rw [alpha_beta]
      split
      · exact Or.inl rfl
      · exact Or.inl rfl
  | succ d' =>
      rw [alpha_beta]
      split
      · exact Or.inl rfl
      · by_cases ht : is_terminal s
        · rw [if_pos ht]
          exact Or.inl rfl
        · rw [if_neg ht]
          by_cases hm : (get_legal_moves s).isEmpty
          · rw [if_pos hm]
            exact Or.inl rfl
          · rw [if_neg hm]
            have hm' : (get_legal_moves s).isEmpty = false := by simpa using hm
            have hperm := order_moves_perm s (get_legal_moves s)
            by_cases hmx : mx
            · rw [if_pos hmx]
              rcases abMaxLoop_move
                  (fun a t m => alpha_beta (s.apply_move m) d' a β false use_tt t)
                  (order_moves s (get_legal_moves s)) ⊥
                  (order_moves s (get_legal_moves s)).head? α β tt with h | ⟨m, hmem, h⟩
              · obtain ⟨m, hh, hmem⟩ := head_mem_of_ne_nil (ordered_ne_nil s hm')
                exact Or.inr ⟨m, hperm.mem_iff.mp hmem, h.trans hh⟩
              · exact Or.inr ⟨m, hperm.mem_iff.mp hmem, h⟩
            · rw [if_neg hmx]
              rcases abMinLoop_move
                  (fun b t m => alpha_beta (s.apply_move m) d' α b true use_tt t)
                  (order_moves s (get_legal_moves s)) ⊤
                  (order_moves s (get_legal_moves s)).head? α β tt with h | ⟨m, hmem, h⟩
              · obtain ⟨m, hh, hmem⟩ := head_mem_of_ne_nil (ordered_ne_nil s hm')
                exact Or.inr ⟨m, hperm.mem_iff.mp hmem, h.trans hh⟩
              · exact Or.inr ⟨m, hperm.mem_iff.mp hmem, h⟩

/-! Miscellaneous list facts used by C6 and C9. -/

theorem foldl_filter_append (p : Coord → Prop) [DecidablePred p] :
    ∀ (l acc : List Coord),
      l.foldl (fun a c => if p c then a ++ [c] else a) acc =
        acc ++ l.filter (fun c => decide (p c)) := by
  intro l
  induction l with
  | nil => intro acc; simp
  | cons c rest ih =>
      intro acc
      by_cases h : p c
      · rw [List.foldl_cons, if_pos h, ih, List.filter_cons]
        simp [h]
      · rw [List.foldl_cons, if_neg h, ih, List.filter_cons]
        simp [h]

theorem legal_moves_eq_spec (s : GameState) : get_legal_moves s = legal_moves_spec s := by
  rw [get_legal_moves, legal_moves_spec]
  exact foldl_filter_append _ _ []

theorem set_append_last {α : Type} (l : List α) (x y : α) :
    (l ++ [x]).set l.length y = l ++ [y] := by
  rw [List.set_append]
  rw [if_neg (lt_irrefl _)]
  simp

theorem getElem_append_last {α : Type} (l : List α) (x : α) :
    (l ++ [x])[l.length]? = some x := by
  simp

/-! Concrete evaluations used by the C4 and C5 counterexamples. -/

theorem evaluate_exC4_eq : evaluate_state exC4 = 13 / 2 := by
  simp +decide only [evaluate_state, exC4, mkGameState, GameState.get_score_difference,
    GameState.get_current_player_pos, GameState.copy,
    dictLookup, dictErase, get_nearest_treasure,
    nearestLoop, manhattan_distance, fuzzy_distance_score, fuzzy_score_difference,
    get_legal_moves, Prod.mk.injEq]
  norm_num

theorem evaluate_exC4_child_eq : evaluate_state (exC4.apply_move (0, 1)) = 1000 := by
  norm_num [evaluate_state, exC4, mkGameState, GameState.get_score_difference,
    GameState.apply_move, GameState.copy, dictLookup, dictErase]

theorem quiescence_exC4_eq : quiescence_search 2 exC4 ⊥ ⊤ true = vq 1000 := by
  have hmoves : get_legal_moves exC4 = [(0, 1), (1, 0)] := by decide
  have hterm :
      ((get_legal_moves (exC4.apply_move (0, 1))).filter
        (fun m => (dictLookup (exC4.apply_move (0, 1)).treasures m).isSome)).isEmpty = true := by
    decide
  rw [quiescence_search, hmoves]
  have hcap : ([(0, 1), (1, 0)] : List Coord).filter
      (fun m => (dictLookup exC4.treasures m).isSome) = [(0, 1)] := by decide
  rw [hcap]
  simp only [List.isEmpty, qLoopMax]
  rw [quiescence_search, hterm]
  simp only [if_pos rfl, evaluate_exC4_eq, evaluate_exC4_child_eq, max_vq]
  rw [if_neg]
  · norm_num [qLoopMax, max_vq]
  · decide

theorem evaluate_exS2_eq : evaluate_state exS2 = 25 / 4 := by
  simp +decide only [evaluate_state, exS2, exS1, exS0, mkGameState,
    GameState.get_score_difference,
    GameState.get_current_player_pos, GameState.copy, GameState.apply_move,
    dictLookup, dictErase, get_nearest_treasure,
    nearestLoop, manhattan_distance, fuzzy_distance_score, fuzzy_score_difference,
    get_legal_moves, Prod.mk.injEq]
  norm_num [Prod.ext_iff]

theorem evaluate_spec_exS2_eq : evaluate_spec_C5 exS2 = 23 / 4 := by
  simp +decide only [evaluate_spec_C5, exS2, exS1, exS0, mkGameState,
    GameState.get_score_difference,
    GameState.get_current_player_pos, GameState.copy, GameState.apply_move,
    dictLookup, dictErase, get_nearest_treasure,
    nearestLoop, manhattan_distance, fuzzy_distance_score, fuzzy_score_difference,
    get_legal_moves, Prod.mk.injEq]
  norm_num [Prod.ext_iff]

/-! The ten claims. -/

/-- Claim C1 (code bug): the visited set is NOT monotone along legal moves.
Starting from a freshly constructed 4-by-4 state, the legal human move to
(1,0) followed by the legal AI move to (2,3) silently drops the human's
starting cell (0,0) from `visited`, because `copy` (through the constructor's
reinitialisation of `visited`) resets the set to the two current positions.
The spec requires `visited` to be a superset of every prior position. -/
theorem C1_visited_not_monotone :
    ((1, 0) ∈ get_legal_moves exS0) ∧ ((2, 3) ∈ get_legal_moves exS1) ∧
    exS1 = exS0.apply_move (1, 0) ∧ exS2 = exS1.apply_move (2, 3) ∧
    (0, 0) ∈ exS1.visited ∧ (0, 0) ∉ exS2.visited ∧
    ¬ exS1.visited ⊆ exS2.visited :=
  ⟨by decide, by decide, rfl, rfl, by decide, by decide, by decide⟩

/-- Claim C2 (code bug): `is_terminal` does not check the other side on the
same visited set.  In `exC2` a treasure remains, the mover has no legal move,
and the other side also has no legal move on the very same visited set, so the
claimed specification calls the state terminal; but the code's hypothetical
turn swap runs on a `copy` whose visited set has been reset to the two current
positions, finds moves for the other side there, and returns false. -/
theorem C2_terminal_swap_divergence :
    exC2.treasures ≠ [] ∧ get_legal_moves exC2 = [] ∧
    get_legal_moves { exC2 with is_human_turn := !exC2.is_human_turn } = [] ∧
    is_terminal exC2 = false :=
  ⟨by decide, by decide, by decide, by decide⟩

/-- Claim C3 (code bug): `apply_move` at an orthogonal neighbor updates
position, score, treasures and turn as claimed, but the resulting visited set
is NOT the input's visited set plus the move: it is
`{human_pos, ai_pos} ∪ {move}`, because the internal `copy` resets `visited`.
At `exS1` (mover the AI at (3,3), destination the adjacent (2,3)) the two sets
differ. -/
theorem C3_apply_visited_divergence :
    exS1.get_current_player_pos = (3, 3) ∧ manhattan_distance (3, 3) (2, 3) = 1 ∧
    (exS1.apply_move (2, 3)).visited ≠ exS1.visited ∪ {(2, 3)} ∧
    (exS1.apply_move (2, 3)).visited =
      insert (2, 3) ({exS1.human_pos, exS1.ai_pos} : Finset Coord) :=
  ⟨by decide, by decide, by decide, by decide⟩

/-- Claim C4 counterexample: minimax and alpha-beta disagree at an identical
(state, depth, side).  At `exC4` with depth 0 and the maximizing side, minimax
returns the static evaluation 13/2 while alpha-beta, whose depth-0 leaves are
evaluated by quiescence search, chases the adjacent capture and returns 1000. -/
theorem C4_depth0_counterexample :
    (minimax exC4 0 true).1 ≠ (alpha_beta exC4 0 ⊥ ⊤ true true []).1 := by
  have h1 : (minimax exC4 0 true).1 = vq (13 / 2) := by
    rw [minimax, evaluate_exC4_eq]
  have h2 : (alpha_beta exC4 0 ⊥ ⊤ true true []).1 = vq 1000 := quiescence_exC4_eq
  rw [h1, h2, Ne, vq_inj]
  norm_num

/-- Claim C4 (amended): with the transposition table disabled and no capture
move available at any non-terminal depth-0 leaf of the search tree (the
`quietB` condition, under which quiescence search reduces to the static
evaluation), alpha-beta on the full window returns exactly the minimax value:
pruning, move ordering and window narrowing never change the game value. -/
theorem C4_pruning_preserves_value (s : GameState) (d : ℕ) (mx : Bool) (tt : TT)
    (hq : quietB s d = true) :
    (alpha_beta s d ⊥ ⊤ mx false tt).1 = (minimax s d mx).1 := by
  obtain ⟨h1, h2⟩ := alpha_beta_minimax_bound d s mx ⊥ ⊤ tt hq bot_lt_top
  rw [inf_top_eq] at h1
  rw [sup_bot_eq] at h2
  exact le_antisymm h2 h1

/-- Witness for the amended C4: a concrete quiet two-ply position where the
theorem applies. -/
theorem C4_pruning_preserves_value_witness :
    quietB exC4w 2 = true ∧
      (alpha_beta exC4w 2 ⊥ ⊤ true false []).1 = (minimax exC4w 2 true).1 :=
  ⟨by decide, C4_pruning_preserves_value exC4w 2 true [] (by decide)⟩

/-- Claim C5 (code bug): the evaluation of `exS2` (a state reached by two
legal moves from `exS0`) differs from the claimed formula, in which the
mobility counts are taken on the state itself with only the turn forced: the
code takes them on a `copy` whose visited set has been reset, so the AI's
blocked neighbor (3,3) is counted as free.  All other factors coincide. -/
theorem C5_mobility_divergence :
    evaluate_state exS2 = 25 / 4 ∧ evaluate_spec_C5 exS2 = 23 / 4 ∧
    evaluate_state exS2 ≠ evaluate_spec_C5 exS2 := by
  refine ⟨evaluate_exS2_eq, evaluate_spec_exS2_eq, ?_⟩
  rw [evaluate_exS2_eq, evaluate_spec_exS2_eq]
  norm_num

/-- Claim C6: `get_legal_moves` returns exactly the in-bounds unvisited subset
of the four orthogonal neighbors of the mover's position, in the fixed order
up, down, left, right; on the spec's worked example (3-by-3, treasures at
(0,2) and (2,0), players at opposite corners, first player to move) the result
is [(1,0), (0,1)]. -/
theorem C6_legal_moves :
    (∀ s : GameState, get_legal_moves s = legal_moves_spec s) ∧
    get_legal_moves exC6 = [(1, 0), (0, 1)] :=
  ⟨legal_moves_eq_spec, by decide⟩

/-- Claim C7: on a state with no treasures left, `evaluate_state` returns the
fixed-magnitude signal +1000 / -1000 / 0 according to the sign of the score
difference, independent of the margin. -/
theorem C7_terminal_eval (s : GameState) (h : s.treasures = []) :
    evaluate_state s =
      if s.human_score < s.ai_score then 1000
      else if s.ai_score < s.human_score then -1000
      else 0 := by
  rw [evaluate_state]
  simp only [h, List.isEmpty_nil, if_true, GameState.get_score_difference]
  split_ifs <;> first | rfl | (exfalso; omega)

/-- Witness for C7: the spec's worked example with maximizer score 8,
minimizer score 0 evaluates to +1000. -/
theorem C7_terminal_eval_witness :
    exC7.treasures = [] ∧ exC7.ai_score = 8 ∧ exC7.human_score = 0 ∧
      evaluate_state exC7 = 1000 :=
  ⟨rfl, rfl, rfl, (C7_terminal_eval exC7 rfl).trans (by norm_num [exC7, mkGameState])⟩

/-- Claim C8: whenever at least one legal move exists, `get_best_move`
returns one of the legal moves, for every depth, pruning flag and
transposition-table content; a search that produces no move (for example
after a root-level transposition hit) falls back to the first legal move. -/
theorem C8_get_best_move_mem (s : GameState) (d : ℕ) (p : Bool) (tt : TT)
    (h : get_legal_moves s ≠ []) :
    ∃ m, get_best_move s d p tt = some m ∧ m ∈ get_legal_moves s := by
  rw [get_best_move]
  by_cases h1 : (get_legal_moves s).length = 1
  · simp only [if_pos h1]
    exact head_mem_of_ne_nil h
  · simp only [if_neg h1]
    split
    · rename_i sm heq
      refine ⟨sm, rfl, ?_⟩
      by_cases h2 : s.visited.card ≤ 2
      · rw [if_pos h2] at heq
        cases hob : opening_book_lookup (s.human_pos, s.ai_pos, s.is_human_turn) with
        | none => rw [hob] at heq; exact absurd heq (by simp)
        | some sm' =>
            simp only [hob] at heq
            by_cases hin : sm' ∈ get_legal_moves s
            · rw [if_pos hin] at heq
              obtain rfl : sm' = sm := by injection heq
              exact hin
            · rw [if_neg hin] at heq
              exact absurd heq (by simp)
      · rw [if_neg h2] at heq
        exact absurd heq (by simp)
    · split
      · rename_i m heq2
        refine ⟨m, rfl, ?_⟩
        by_cases hp : p
        · rw [if_pos hp] at heq2
          rcases alpha_beta_move_mem s
              (if s.treasures.length ≤ 2 then min (d + 2) 8
               else if s.treasures.length ≤ 4 then min (d + 1) 6 else d)
              ⊥ ⊤ (!s.is_human_turn) true tt with hnone | ⟨m', hmem', he⟩
          · rw [heq2] at hnone; exact absurd hnone (by simp)
          · rw [heq2] at he
            obtain rfl : m = m' := by injection he
            exact hmem'
        · rw [if_neg hp] at heq2
          rcases minimax_move_mem s
              (if s.treasures.length ≤ 2 then min (d + 2) 8
               else if s.treasures.length ≤ 4 then min (d + 1) 6 else d)
              (!s.is_human_turn) with hnone | ⟨m', hmem', he⟩
          · rw [heq2] at hnone; exact absurd hnone (by simp)
          · rw [heq2] at he
            obtain rfl : m = m' := by injection he
            exact hmem'
      · exact head_mem_of_ne_nil h

/-- Witness for C8 at the spec's 3-by-3 example state. -/
theorem C8_get_best_move_mem_witness :
    get_legal_moves exC6 ≠ [] ∧
      ∃ m, get_best_move exC6 4 true [] = some m ∧ m ∈ get_legal_moves exC6 :=
  ⟨by decide, C8_get_best_move_mem exC6 4 true [] (by decide)⟩

/-- Claim C9: `apply_move` is pure.  At the heap level, where objects live at
list indices and `copy` allocates, the method leaves the object at the input
address untouched, returns a fresh address, and the object written there is
exactly the functional `apply_move` of the input object. -/
theorem C9_apply_move_pure (h : List GameState) (a : ℕ) (move : Coord)
    (ha : a < h.length) :
    ((apply_move_heap h a move).1)[a]? = h[a]? ∧
    (apply_move_heap h a move).2 = some h.length ∧
    ∀ s, h[a]? = some s →
      ((apply_move_heap h a move).1)[h.length]? = some (s.apply_move move) := by
  have hs : h[a]? = some h[a] := List.getElem?_eq_getElem ha
  have hred : apply_move_heap h a move =
      (h ++ [GameState.apply_move h[a] move], some h.length) := by
    rw [apply_move_heap]
    simp only [hs, getElem_append_last, set_append_last]
    rw [GameState.apply_move]
  refine ⟨?_, ?_, ?_⟩
  · rw [hred]
    exact List.getElem?_append_left ha
  · rw [hred]
  · intro s hseq
    rw [hs] at hseq
    obtain rfl : h[a] = s := by injection hseq
    rw [hred]
    exact getElem_append_last h _

/-- Witness for C9: a one-object heap holding `exS0`. -/
theorem C9_apply_move_pure_witness :
    0 < ([exS0] : List GameState).length ∧
      (((apply_move_heap [exS0] 0 (1, 0)).1)[0]? = ([exS0] : List GameState)[0]? ∧
       (apply_move_heap [exS0] 0 (1, 0)).2 = some ([exS0] : List GameState).length ∧
       ∀ s, ([exS0] : List GameState)[0]? = some s →
         ((apply_move_heap [exS0] 0 (1, 0)).1)[([exS0] : List GameState).length]? =
           some (s.apply_move (1, 0))) :=
  ⟨by decide, C9_apply_move_pure [exS0] 0 (1, 0) (by decide)⟩

/-- Claim C10: every construction of a `GameState` (the raw constructor via
`mkGameState` and `copy`) discards the supplied visited set and reinstates
exactly the two current positions; consequently `apply_move` produces a
three-element visited set, `is_terminal`'s hypothetical turn swap checks the
other side against only the two current positions, and the mobility counts in
the evaluation see only those two cells as visited. -/
theorem C10_visited_reset :
    (∀ (gs : ℤ) (hp ap : Coord) (hs as2 : ℤ) (tr : List (Coord × ℤ))
        (vis : Finset Coord) (turn : Bool),
       (mkGameState gs hp ap hs as2 tr vis turn).visited = {hp, ap}) ∧
    (∀ s : GameState, s.copy = { s with visited := {s.human_pos, s.ai_pos} }) ∧
    (∀ (s : GameState) (m : Coord),
       (s.apply_move m).visited = insert m {s.human_pos, s.ai_pos}) ∧
    (∀ s : GameState, is_terminal s =
       (s.treasures.isEmpty || ((get_legal_moves s).isEmpty &&
         (get_legal_moves { s with visited := ({s.human_pos, s.ai_pos} : Finset Coord), is_human_turn := !s.is_human_turn }).isEmpty))) ∧
    (∀ s : GameState,
       get_legal_moves { s.copy with is_human_turn := false } =
         get_legal_moves { s with visited := ({s.human_pos, s.ai_pos} : Finset Coord), is_human_turn := false } ∧
       get_legal_moves { s.copy with is_human_turn := true } =
         get_legal_moves { s with visited := ({s.human_pos, s.ai_pos} : Finset Coord), is_human_turn := true }) := by
  refine ⟨fun _ _ _ _ _ _ _ _ => rfl, fun s => rfl, ?_, ?_, fun s => ⟨rfl, rfl⟩⟩
  · intro s m
    cases hb : s.is_human_turn <;>
      simp only [GameState.apply_move, GameState.copy, mkGameState, hb] <;>
      cases hd : dictLookup s.treasures m <;>
      simp [hd]
  · intro s
    rw [is_terminal]
    cases hte : s.treasures.isEmpty <;>
      cases hmv : (get_legal_moves s).isEmpty <;>
        simp [hte, hmv, GameState.copy, mkGameState]

end TreasureDuel
